import Mathlib

/-!
Shallow embedding of the log-tailing engine of cargo-aws-lambda.

The repository has two historical variants of the tailing loop:
* `tail` in `src/logs.rs`, which additionally filters events by a
  `user_time` threshold taken at process start, and
* `tail_logs` in `src/main.rs`, which has no such filter.

Both loops share the same skeleton: build a `FilterLogEventsRequest`,
issue the query, iterate over the returned events printing each unseen
event's message, remember the response's `next_token`, and when the
token is `None` advance `start_time` to now minus a five-minute margin.

The embedding below models the per-page event processing as a function
returning `Option` (`none` models a Rust panic from `unwrap` on `None`),
and the loop as a fold over an oracle list of query results paired with
the clock value observed after that iteration.
-/

/-- Largest `i64` value, used by `unwrap_or(::std::i64::MAX)`. -/
def i64Max : Int := 9223372036854775807

/-- The fields of `rusoto_logs::FilteredLogEvent` the code touches. -/
structure FilteredLogEvent where
  event_id : Option String
  timestamp : Option Int
  message : Option String
deriving Repr, DecidableEq

/-- The request type `rusoto_logs::FilterLogEventsRequest` as the loops build it. -/
structure FilterLogEventsRequest where
  end_time : Option Int
  filter_pattern : Option String
  limit : Option Int
  log_group_name : String
  log_stream_name_prefix : Option String
  log_stream_names : Option (List String)
  next_token : Option String
  start_time : Option Int
deriving Repr, DecidableEq

/-- The fields of `rusoto_logs::FilterLogEventsResponse` the code reads. -/
structure FilterLogEventsResponse where
  events : Option (List FilteredLogEvent)
  next_token : Option String
deriving Repr, DecidableEq

/-- Errors of the remote query call (`filter_log_events(..).sync()`). -/
abbrev QueryError := String

/-- The mutable loop state of `tail` / `tail_logs`: pagination token,
window lower bound, and the dedup set (`HashSet` modelled as a list). -/
structure TailState where
  next_token : Option String
  start_time : Option Int
  seen : List String
deriving Repr, DecidableEq

/-- Five minutes in milliseconds, the backward safety margin. -/
def safetyMargin : Int := 5 * 60 * 1000

/-- The `unix` closure: current epoch millis minus the safety margin. -/
def unix (now : Int) : Int := now - safetyMargin

/-- The request built at the top of each loop iteration. -/
def mkRequest (function_name : String) (s : TailState) :
    FilterLogEventsRequest :=
  { end_time := none
    filter_pattern := none
    limit := some 10000
    log_group_name := "/aws/lambda/" ++ function_name
    log_stream_name_prefix := none
    log_stream_names := none
    next_token := s.next_token
    start_time := s.start_time }

/-- The `for event in events` body of `tail_logs` (`src/main.rs`):
skip events whose id is already in `seen`, otherwise print the message
and insert the id.  Returns the updated seen set and the list of
emitted `(event_id, message)` pairs in emission order; `none` models a
panic from `unwrap` on a missing `event_id` or `message`. -/
def processEvents (seen : List String) :
    List FilteredLogEvent → Option (List String × List (String × String))
  | [] => some (seen, [])
  | e :: rest =>
    match e.event_id with
    | none => none
    | some id =>
      if id ∈ seen then
        processEvents seen rest
      else
        match e.message with
        | none => none
        | some msg =>
          match processEvents (id :: seen) rest with
          | none => none
          | some (seen', out) => some (seen', (id, msg) :: out)

/-- The `for event in events` body of `tail` (`src/logs.rs`): as
`processEvents`, but an event is only emitted when additionally its
timestamp (defaulted to `i64::MAX` when absent) exceeds `user_time`. -/
def processEventsT (user_time : Int) (seen : List String) :
    List FilteredLogEvent → Option (List String × List (String × String))
  | [] => some (seen, [])
  | e :: rest =>
    match e.event_id with
    | none => none
    | some id =>
      if id ∈ seen then
        processEventsT user_time seen rest
      else if user_time < e.timestamp.getD i64Max then
        match e.message with
        | none => none
        | some msg =>
          match processEventsT user_time (id :: seen) rest with
          | none => none
          | some (seen', out) => some (seen', (id, msg) :: out)
      else
        processEventsT user_time seen rest

/-- Outcome of one loop iteration once the query result is in hand. -/
inductive StepResult where
  | ok : TailState → List (String × String) → StepResult
  | panicked : StepResult
  | failed : QueryError → StepResult
deriving Repr, DecidableEq

/-- One iteration of the `tail_logs` loop after the query returned
`res`, with `now` the clock value read by the `unix` closure: process
the events, store the response token, and advance `start_time` when the
token is exhausted. -/
def tailStep (res : Except QueryError FilterLogEventsResponse)
    (now : Int) (s : TailState) : StepResult :=
  match res with
  | .error e => .failed e
  | .ok r =>
    match (match r.events with
           | none => some (s.seen, [])
           | some evs => processEvents s.seen evs) with
    | none => .panicked
    | some (seen', out) =>
      let nt := r.next_token
      let st := match nt with
        | none => some (unix now)
        | some _ => s.start_time
      .ok { next_token := nt, start_time := st, seen := seen' } out

/-- One iteration of the `tail` loop of `src/logs.rs` (the variant with
the `user_time` threshold filter). -/
def tailStepT (user_time : Int)
    (res : Except QueryError FilterLogEventsResponse)
    (now : Int) (s : TailState) : StepResult :=
  match res with
  | .error e => .failed e
  | .ok r =>
    match (match r.events with
           | none => some (s.seen, [])
           | some evs => processEventsT user_time s.seen evs) with
    | none => .panicked
    | some (seen', out) =>
      let nt := r.next_token
      let st := match nt with
        | none => some (unix now)
        | some _ => s.start_time
      .ok { next_token := nt, start_time := st, seen := seen' } out

/-- Result of running the loop against a finite oracle of query
results.  `running` means every oracle entry was consumed and the loop
is about to poll again; `failed` is the `?` early return; `panicked`
models an `unwrap` panic; `done` is the `Ok(())` return allowed by the
function's `Result<(), _>` type — the loop never produces it. -/
inductive RunResult where
  | running : TailState → List (String × String) → RunResult
  | failed : QueryError → List (String × String) → RunResult
  | panicked : List (String × String) → RunResult
  | done : List (String × String) → RunResult
deriving Repr, DecidableEq

/-- All `(event_id, message)` pairs emitted during the run, in order. -/
def RunResult.output : RunResult → List (String × String)
  | .running _ out => out
  | .failed _ out => out
  | .panicked out => out
  | .done out => out

/-- Run the `tail_logs` loop over an oracle list of query results, each
paired with the clock value its iteration observes. -/
def tailRun (s : TailState) :
    List (Except QueryError FilterLogEventsResponse × Int) → RunResult
  | [] => .running s []
  | (res, now) :: rest =>
    match tailStep res now s with
    | .failed e => .failed e []
    | .panicked => .panicked []
    | .ok s' out =>
      match tailRun s' rest with
      | .running s'' out' => .running s'' (out ++ out')
      | .failed e out' => .failed e (out ++ out')
      | .panicked out' => .panicked (out ++ out')
      | .done out' => .done (out ++ out')

/-- Run the `tail` loop of `src/logs.rs` over an oracle list. -/
def tailRunT (user_time : Int) (s : TailState) :
    List (Except QueryError FilterLogEventsResponse × Int) → RunResult
  | [] => .running s []
  | (res, now) :: rest =>
    match tailStepT user_time res now s with
    | .failed e => .failed e []
    | .panicked => .panicked []
    | .ok s' out =>
      match tailRunT user_time s' rest with
      | .running s'' out' => .running s'' (out ++ out')
      | .failed e out' => .failed e (out ++ out')
      | .panicked out' => .panicked (out ++ out')
      | .done out' => .done (out ++ out')

/-- A query result that succeeded and whose events all carry an
`event_id` and a `message` (so processing cannot panic). -/
def okWf : Except QueryError FilterLogEventsResponse → Bool
  | .error _ => false
  | .ok r => (r.events.getD []).all
      (fun e => e.event_id.isSome && e.message.isSome)

/-- A query result that, if successful, only carries events whose
timestamp (absent defaulted to `i64::MAX`) exceeds `user_time`. -/
def allTsAbove (user_time : Int) :
    Except QueryError FilterLogEventsResponse → Bool
  | .error _ => true
  | .ok r => (r.events.getD []).all
      (fun e => decide (user_time < e.timestamp.getD i64Max))

/-! ## Helper lemmas about page processing -/

/-- Processing never panics when every event in the page carries both
an `event_id` and a `message`. -/
theorem processEvents_isSome (seen : List String)
    (evs : List FilteredLogEvent)
    (h : ∀ e ∈ evs, e.event_id.isSome ∧ e.message.isSome) :
    (processEvents seen evs).isSome := by
  induction evs generalizing seen with
  | nil => simp [processEvents]
  | cons e rest ih =>
    obtain ⟨hid, hmsg⟩ := h e (by simp)
    obtain ⟨id, hid'⟩ := Option.isSome_iff_exists.mp hid
    obtain ⟨msg, hmsg'⟩ := Option.isSome_iff_exists.mp hmsg
    have hrest : ∀ x ∈ rest, x.event_id.isSome ∧ x.message.isSome :=
      fun x hx => h x (List.mem_cons_of_mem _ hx)
    simp only [processEvents, hid', hmsg']
    by_cases hmem : id ∈ seen
    · simp only [if_pos hmem]
      exact ih seen hrest
    · simp only [if_neg hmem]
      have hrec := ih (id :: seen) hrest
      cases hpe : processEvents (id :: seen) rest with
      | none => rw [hpe] at hrec; simp at hrec
      | some p => cases p with
        | mk a b => simp


/-- Characterisation of the seen set after a page: the ids emitted on
the page, newest first, pushed onto the incoming set; emitted ids are
pairwise distinct and none of them was already seen. -/
theorem processEvents_spec (seen seen' : List String)
    (evs : List FilteredLogEvent) (out : List (String × String))
    (h : processEvents seen evs = some (seen', out)) :
    seen' = (out.map Prod.fst).reverse ++ seen ∧
    (out.map Prod.fst).Nodup ∧
    ∀ i ∈ out.map Prod.fst, i ∉ seen := by
  induction evs generalizing seen out with
  | nil =>
    simp only [processEvents, Option.some.injEq, Prod.mk.injEq] at h
    obtain ⟨h1, h2⟩ := h
    subst h1; subst h2
    simp
  | cons e rest ih =>
    cases hid : e.event_id with
    | none => simp [processEvents, hid] at h
    | some id =>
      by_cases hmem : id ∈ seen
      · simp only [processEvents, hid, if_pos hmem] at h
        exact ih seen out h
      · cases hmsg : e.message with
        | none => simp [processEvents, hid, if_neg hmem, hmsg] at h
        | some msg =>
          cases hpe : processEvents (id :: seen) rest with
          | none => simp [processEvents, hid, if_neg hmem, hmsg, hpe] at h
          | some p =>
            cases p with
            | mk seenR outR =>
              simp only [processEvents, hid, if_neg hmem, hmsg, hpe,
                Option.some.injEq, Prod.mk.injEq] at h
              obtain ⟨h1, h2⟩ := h
              subst h1
              obtain ⟨ihs, ihnd, ihmem⟩ := ih (id :: seen) outR hpe
              subst h2
              refine ⟨?_, ?_, ?_⟩
              · simp only [List.map_cons, List.reverse_cons, ihs,
                  List.append_assoc, List.singleton_append]
              · simp only [List.map_cons, List.nodup_cons]
                exact ⟨fun hcon => (ihmem id hcon) (List.mem_cons_self id seen),
                  ihnd⟩
              · intro i hi
                simp only [List.map_cons, List.mem_cons] at hi
                rcases hi with rfl | hi
                · exact hmem
                · exact fun hcon => (ihmem i hi) (List.mem_cons_of_mem _ hcon)

/-- Processing a concatenation of pages is processing them in turn,
threading the seen set and appending the outputs. -/
theorem processEvents_append (seen : List String)
    (pre post : List FilteredLogEvent) :
    processEvents seen (pre ++ post) =
      (processEvents seen pre).bind
        (fun p => (processEvents p.1 post).map
          (fun q => (q.1, p.2 ++ q.2))) := by
  induction pre generalizing seen with
  | nil =>
    simp only [List.nil_append, processEvents, Option.bind_eq_bind,
      Option.some_bind]
    cases processEvents seen post with
    | none => rfl
    | some q => cases q with
      | mk a b => simp
  | cons e rest ih =>
    cases hid : e.event_id with
    | none => simp [List.cons_append, processEvents, hid]
    | some id =>
      by_cases hmem : id ∈ seen
      · simp only [List.cons_append, processEvents, hid, if_pos hmem]
        exact ih seen
      · cases hmsg : e.message with
        | none => simp [List.cons_append, processEvents, hid, if_neg hmem, hmsg]
        | some msg =>
          simp only [List.cons_append, processEvents, hid, if_neg hmem, hmsg,
            List.append_eq]
          rw [ih (id :: seen)]
          cases processEvents (id :: seen) rest with
          | none => rfl
          | some p =>
            cases p with
            | mk s1 o1 =>
              simp only [Option.bind_eq_bind, Option.some_bind]
              cases processEvents s1 post with
              | none => rfl
              | some q => cases q with
                | mk s2 o2 => simp

/-- With every event's (defaulted) timestamp above `user_time`, the
`logs.rs` page loop behaves exactly like the `main.rs` one. -/
theorem processEventsT_eq (user_time : Int) (seen : List String)
    (evs : List FilteredLogEvent)
    (h : ∀ e ∈ evs, user_time < e.timestamp.getD i64Max) :
    processEventsT user_time seen evs = processEvents seen evs := by
  induction evs generalizing seen with
  | nil => rfl
  | cons e rest ih =>
    have hts := h e (List.mem_cons_self e rest)
    have hrest : ∀ x ∈ rest, user_time < x.timestamp.getD i64Max :=
      fun x hx => h x (List.mem_cons_of_mem _ hx)
    cases hid : e.event_id with
    | none => simp [processEventsT, processEvents, hid]
    | some id =>
      by_cases hmem : id ∈ seen
      · simp only [processEventsT, processEvents, hid, if_pos hmem]
        exact ih seen hrest
      · simp only [processEventsT, processEvents, hid, if_neg hmem,
          if_pos hts]
        cases e.message with
        | none => rfl
        | some msg => rw [ih (id :: seen) hrest]

/-! ## Helper lemmas about loop iterations and runs -/

/-- Everything a successful iteration of `tail_logs` guarantees: the
seen set grows by exactly the emitted ids, the emitted ids are fresh
and distinct, the response token is stored, and `start_time` advances
to `unix now` exactly when the token is exhausted. -/
theorem tailStep_ok_spec (r : FilterLogEventsResponse) (now : Int)
    (s s' : TailState) (out : List (String × String))
    (h : tailStep (Except.ok r) now s = .ok s' out) :
    s'.seen = (out.map Prod.fst).reverse ++ s.seen ∧
    (out.map Prod.fst).Nodup ∧
    (∀ i ∈ out.map Prod.fst, i ∉ s.seen) ∧
    s'.next_token = r.next_token ∧
    s'.start_time = (match r.next_token with
      | none => some (unix now)
      | some _ => s.start_time) := by
  cases hev : r.events with
  | none =>
    simp only [tailStep, hev, StepResult.ok.injEq] at h
    obtain ⟨h1, h2⟩ := h
    subst h1; subst h2
    simp
  | some evs =>
    cases hpe : processEvents s.seen evs with
    | none => simp [tailStep, hev, hpe] at h
    | some p =>
      cases p with
      | mk seenP outP =>
        simp only [tailStep, hev, hpe, StepResult.ok.injEq] at h
        obtain ⟨h1, h2⟩ := h
        subst h1; subst h2
        obtain ⟨hs, hnd, hm⟩ := processEvents_spec s.seen seenP evs outP hpe
        exact ⟨hs, hnd, hm, rfl, rfl⟩

/-- A successful, well-formed query result makes the iteration succeed. -/
theorem tailStep_ok_of_wf (res : Except QueryError FilterLogEventsResponse)
    (now : Int) (s : TailState) (h : okWf res = true) :
    ∃ s' out, tailStep res now s = .ok s' out := by
  cases res with
  | error e => simp [okWf] at h
  | ok r =>
    cases hev : r.events with
    | none =>
      cases hnt : r.next_token with
      | none =>
        exact ⟨⟨none, some (unix now), s.seen⟩, [],
          by simp [tailStep, hev, hnt]⟩
      | some t =>
        exact ⟨⟨some t, s.start_time, s.seen⟩, [],
          by simp [tailStep, hev, hnt]⟩
    | some evs =>
      have hwf : ∀ e ∈ evs, e.event_id.isSome ∧ e.message.isSome := by
        simp only [okWf, hev, Option.getD_some, List.all_eq_true,
          Bool.and_eq_true] at h
        exact h
      obtain ⟨p, hp⟩ :=
        Option.isSome_iff_exists.mp (processEvents_isSome s.seen evs hwf)
      cases p with
      | mk seenP outP =>
        cases hnt : r.next_token with
        | none =>
          exact ⟨⟨none, some (unix now), seenP⟩, outP,
            by simp [tailStep, hev, hp, hnt]⟩
        | some t =>
          exact ⟨⟨some t, s.start_time, seenP⟩, outP,
            by simp [tailStep, hev, hp, hnt]⟩

/-- Unfolding one successful iteration of the run. -/
theorem tailRun_cons_ok (res : Except QueryError FilterLogEventsResponse)
    (now : Int)
    (rest : List (Except QueryError FilterLogEventsResponse × Int))
    (s s' : TailState) (out : List (String × String))
    (hstep : tailStep res now s = .ok s' out) :
    tailRun s ((res, now) :: rest) =
      (match tailRun s' rest with
       | .running s'' out' => .running s'' (out ++ out')
       | .failed e out' => .failed e (out ++ out')
       | .panicked out' => .panicked (out ++ out')
       | .done out' => .done (out ++ out')) := by
  simp only [tailRun, hstep]

/-- Freshness and distinctness transfer across an appended page. -/
theorem nodup_disjoint_append (out o' : List (String × String))
    (seenS seenS' : List String)
    (hs : seenS' = (out.map Prod.fst).reverse ++ seenS)
    (hnd : (out.map Prod.fst).Nodup)
    (hm : ∀ i ∈ out.map Prod.fst, i ∉ seenS)
    (ihnd : (o'.map Prod.fst).Nodup)
    (ihm : ∀ i ∈ o'.map Prod.fst, i ∉ seenS') :
    ((out ++ o').map Prod.fst).Nodup ∧
    ∀ i ∈ (out ++ o').map Prod.fst, i ∉ seenS := by
  subst hs
  constructor
  · rw [List.map_append]
    refine List.Nodup.append hnd ihnd ?_
    intro a ha ha'
    exact ihm a ha' (by simp [ha])
  · intro i hi
    rw [List.map_append, List.mem_append] at hi
    rcases hi with hi | hi
    · exact hm i hi
    · intro hcon
      exact ihm i hi (by simp [hcon])

/-- Across a whole run the emitted event ids are pairwise distinct and
none of them was in the initial seen set. -/
theorem tailRun_nodup
    (oracle : List (Except QueryError FilterLogEventsResponse × Int))
    (s : TailState) :
    ((tailRun s oracle).output.map Prod.fst).Nodup ∧
    ∀ i ∈ (tailRun s oracle).output.map Prod.fst, i ∉ s.seen := by
  induction oracle generalizing s with
  | nil => simp [tailRun, RunResult.output]
  | cons x rest ih =>
    cases x with
    | mk res now =>
      cases hstep : tailStep res now s with
      | failed e => simp [tailRun, hstep, RunResult.output]
      | panicked => simp [tailRun, hstep, RunResult.output]
      | ok s' out =>
        cases res with
        | error e => simp [tailStep] at hstep
        | ok r =>
          obtain ⟨hs, hnd, hm, -, -⟩ := tailStep_ok_spec r now s s' out hstep
          rw [tailRun_cons_ok _ _ rest s s' out hstep]
          obtain ⟨ihnd, ihm⟩ := ih s'
          cases hrr : tailRun s' rest with
          | running s'' o' =>
            rw [hrr] at ihnd ihm
            simp only [RunResult.output] at ihnd ihm ⊢
            exact nodup_disjoint_append out o' s.seen s'.seen hs hnd hm ihnd ihm
          | failed e o' =>
            rw [hrr] at ihnd ihm
            simp only [RunResult.output] at ihnd ihm ⊢
            exact nodup_disjoint_append out o' s.seen s'.seen hs hnd hm ihnd ihm
          | panicked o' =>
            rw [hrr] at ihnd ihm
            simp only [RunResult.output] at ihnd ihm ⊢
            exact nodup_disjoint_append out o' s.seen s'.seen hs hnd hm ihnd ihm
          | done o' =>
            rw [hrr] at ihnd ihm
            simp only [RunResult.output] at ihnd ihm ⊢
            exact nodup_disjoint_append out o' s.seen s'.seen hs hnd hm ihnd ihm

/-- The run never produces the `Ok(())` outcome. -/
theorem tailRun_ne_done
    (oracle : List (Except QueryError FilterLogEventsResponse × Int))
    (s : TailState) :
    ∀ o, tailRun s oracle ≠ .done o := by
  induction oracle generalizing s with
  | nil => intro o h; simp [tailRun] at h
  | cons x rest ih =>
    cases x with
    | mk res now =>
      intro o h
      cases hstep : tailStep res now s with
      | failed e => simp [tailRun, hstep] at h
      | panicked => simp [tailRun, hstep] at h
      | ok s' out =>
        simp only [tailRun, hstep] at h
        cases hrr : tailRun s' rest with
        | done o' => exact ih s' o' hrr
        | running s'' o' => simp [hrr] at h
        | failed e o' => simp [hrr] at h
        | panicked o' => simp [hrr] at h

/-- With only successful, well-formed query results the run consumes
the whole oracle and is still polling. -/
theorem tailRun_wf_running
    (oracle : List (Except QueryError FilterLogEventsResponse × Int))
    (s : TailState) (h : ∀ x ∈ oracle, okWf x.1 = true) :
    ∃ s' out, tailRun s oracle = .running s' out := by
  induction oracle generalizing s with
  | nil => exact ⟨s, [], rfl⟩
  | cons x rest ih =>
    cases x with
    | mk res now =>
      have hx : okWf res = true := h (res, now) (List.mem_cons_self _ _)
      obtain ⟨s', out, hstep⟩ := tailStep_ok_of_wf res now s hx
      obtain ⟨s'', out', hrr⟩ :=
        ih s' (fun y hy => h y (List.mem_cons_of_mem _ hy))
      refine ⟨s'', out ++ out', ?_⟩
      rw [tailRun_cons_ok res now rest s s' out hstep, hrr]

/-- The two iteration variants agree when all timestamps pass. -/
theorem tailStepT_eq (ut : Int)
    (res : Except QueryError FilterLogEventsResponse) (now : Int)
    (s : TailState) (h : allTsAbove ut res = true) :
    tailStepT ut res now s = tailStep res now s := by
  cases res with
  | error e => rfl
  | ok r =>
    cases hev : r.events with
    | none => simp [tailStepT, tailStep, hev]
    | some evs =>
      have hts : ∀ e ∈ evs, ut < e.timestamp.getD i64Max := by
        simp only [allTsAbove, hev, Option.getD_some, List.all_eq_true,
          decide_eq_true_eq] at h
        exact h
      simp only [tailStepT, tailStep, hev,
        processEventsT_eq ut s.seen evs hts]

/-- The two run variants agree when all timestamps pass. -/
theorem tailRunT_eq (ut : Int) (s : TailState)
    (oracle : List (Except QueryError FilterLogEventsResponse × Int))
    (h : ∀ x ∈ oracle, allTsAbove ut x.1 = true) :
    tailRunT ut s oracle = tailRun s oracle := by
  induction oracle generalizing s with
  | nil => rfl
  | cons x rest ih =>
    cases x with
    | mk res now =>
      have hx : allTsAbove ut res = true := h (res, now) (List.mem_cons_self _ _)
      have hrest := fun y hy => h y (List.mem_cons_of_mem _ hy)
      cases hstep : tailStep res now s with
      | failed e =>
        simp [tailRunT, tailRun, tailStepT_eq ut res now s hx, hstep]
      | panicked =>
        simp [tailRunT, tailRun, tailStepT_eq ut res now s hx, hstep]
      | ok s' out =>
        simp only [tailRunT, tailRun, tailStepT_eq ut res now s hx, hstep]
        rw [ih s' hrest]

/-! ## Further helper lemmas for the panic analysis -/

/-- An event without an `event_id` anywhere in the page makes the page
loop panic: its id is unwrapped before the membership test. -/
theorem processEvents_id_none (seen : List String)
    (evs : List FilteredLogEvent) (e : FilteredLogEvent)
    (he : e ∈ evs) (hid : e.event_id = none) :
    processEvents seen evs = none := by
  induction evs generalizing seen with
  | nil => cases he
  | cons f rest ih =>
    rcases List.mem_cons.mp he with heq | hmem
    · subst heq
      simp [processEvents, hid]
    · cases hfid : f.event_id with
      | none => simp [processEvents, hfid]
      | some id =>
        by_cases hm : id ∈ seen
        · simp only [processEvents, hfid, if_pos hm]
          exact ih seen hmem
        · cases hfmsg : f.message with
          | none => simp [processEvents, hfid, if_neg hm, hfmsg]
          | some msg =>
            simp only [processEvents, hfid, if_neg hm, hfmsg]
            rw [ih (id :: seen) hmem]

/-- An unseen event without a `message` makes the page loop panic once
it is reached. -/
theorem processEvents_msg_none (seen seenP : List String)
    (pre : List FilteredLogEvent) (e : FilteredLogEvent)
    (post : List FilteredLogEvent) (id : String)
    (out : List (String × String))
    (hpre : processEvents seen pre = some (seenP, out))
    (hid : e.event_id = some id) (hmem : id ∉ seenP)
    (hmsg : e.message = none) :
    processEvents seen (pre ++ e :: post) = none := by
  rw [processEvents_append seen pre (e :: post), hpre]
  simp only [Option.bind_eq_bind, Option.some_bind]
  simp [processEvents, hid, if_neg hmem, hmsg]

/-- A page whose processing panics makes the whole iteration panic
rather than fail with a `QueryError`. -/
theorem tailStep_panicked_of (s : TailState) (now : Int)
    (r : FilterLogEventsResponse) (evs : List FilteredLogEvent)
    (hev : r.events = some evs)
    (hpe : processEvents s.seen evs = none) :
    tailStep (Except.ok r) now s = .panicked := by
  simp [tailStep, hev, hpe]

/-! ## Claim theorems -/

/-- C1 counterexample: a response with `next_token = None` and one fresh
event; on the next poll `start_time` has advanced to `unix now` but the
dedup set is `["a"]`, not the empty set the claim requires. -/
theorem seen_not_cleared_on_epoch :
    tailStep (Except.ok ⟨some [⟨some "a", some 1, some "m"⟩], none⟩) 0
        ⟨none, some 0, []⟩ =
      .ok ⟨none, some (unix 0), ["a"]⟩ [("a", "m")] ∧
    (["a"] : List String) ≠ [] := by
  constructor
  · rfl
  · simp

/-- C1 (amended): on a response whose `next_token` is `None` the engine
advances `start_time` to now minus the safety margin before the next
poll (and leaves it unchanged otherwise), but the seen-event dedup set
is never cleared: every id already seen persists through every
successful iteration. -/
theorem epoch_advance_seen_persists
    (r : FilterLogEventsResponse) (now : Int) (s s' : TailState)
    (out : List (String × String))
    (h : tailStep (Except.ok r) now s = .ok s' out) :
    (r.next_token = none → s'.start_time = some (unix now)) ∧
    (∀ t, r.next_token = some t → s'.start_time = s.start_time) ∧
    ∀ x ∈ s.seen, x ∈ s'.seen := by
  obtain ⟨hs, -, -, -, hst⟩ := tailStep_ok_spec r now s s' out h
  refine ⟨?_, ?_, ?_⟩
  · intro hnt; rw [hst, hnt]
  · intro t hnt; rw [hst, hnt]
  · intro x hx; rw [hs]; exact List.mem_append_right _ hx

/-- Witness for the amended C1 at a concrete epoch-boundary step. -/
theorem epoch_advance_seen_persists_witness :
    ((⟨some [], none⟩ : FilterLogEventsResponse).next_token = none →
      (⟨none, some (unix 7), ["x"]⟩ : TailState).start_time =
        some (unix 7)) ∧
    (∀ t, (⟨some [], none⟩ : FilterLogEventsResponse).next_token = some t →
      (⟨none, some (unix 7), ["x"]⟩ : TailState).start_time =
        (⟨none, some 0, ["x"]⟩ : TailState).start_time) ∧
    ∀ x ∈ (⟨none, some 0, ["x"]⟩ : TailState).seen,
      x ∈ (⟨none, some (unix 7), ["x"]⟩ : TailState).seen :=
  epoch_advance_seen_persists ⟨some [], none⟩ 7 ⟨none, some 0, ["x"]⟩
    ⟨none, some (unix 7), ["x"]⟩ [] (by decide)

/-- C2: across any whole run the emitted event ids are pairwise
distinct — each distinct id is emitted at most once — and none of them
was in the initial seen set; the membership test precedes every
emission. -/
theorem tail_emits_each_id_at_most_once
    (oracle : List (Except QueryError FilterLogEventsResponse × Int))
    (s : TailState) :
    ((tailRun s oracle).output.map Prod.fst).Nodup ∧
    ∀ i ∈ (tailRun s oracle).output.map Prod.fst, i ∉ s.seen :=
  tailRun_nodup oracle s

/-- C3: within one query response the emitted `(id, message)` list is
exactly the image of a subsequence of the page's events, in the page's
order: no reordering or batching. -/
theorem page_emission_is_ordered_sublist (seen seen' : List String)
    (evs : List FilteredLogEvent) (out : List (String × String))
    (h : processEvents seen evs = some (seen', out)) :
    ∃ sub : List FilteredLogEvent, sub.Sublist evs ∧
      out.map Prod.snd = sub.map (fun e => e.message.getD "") ∧
      out.map Prod.fst = sub.map (fun e => e.event_id.getD "") := by
  induction evs generalizing seen out with
  | nil =>
    simp only [processEvents, Option.some.injEq, Prod.mk.injEq] at h
    obtain ⟨-, h2⟩ := h
    subst h2
    exact ⟨[], List.Sublist.refl [], by simp, by simp⟩
  | cons e rest ih =>
    cases hid : e.event_id with
    | none => simp [processEvents, hid] at h
    | some id =>
      by_cases hmem : id ∈ seen
      · simp only [processEvents, hid, if_pos hmem] at h
        obtain ⟨sub, hsub, hm, hi⟩ := ih seen out h
        exact ⟨sub, List.Sublist.cons e hsub, hm, hi⟩
      · cases hmsg : e.message with
        | none => simp [processEvents, hid, if_neg hmem, hmsg] at h
        | some msg =>
          cases hpe : processEvents (id :: seen) rest with
          | none => simp [processEvents, hid, if_neg hmem, hmsg, hpe] at h
          | some p =>
            cases p with
            | mk seenR outR =>
              simp only [processEvents, hid, if_neg hmem, hmsg, hpe,
                Option.some.injEq, Prod.mk.injEq] at h
              obtain ⟨h1, h2⟩ := h
              subst h1; subst h2
              obtain ⟨sub, hsub, hm, hi⟩ := ih (id :: seen) outR hpe
              refine ⟨e :: sub, List.Sublist.cons₂ e hsub, ?_, ?_⟩
              · simp [hm, hmsg]
              · simp [hi, hid]

/-- Witness for C3 on a concrete one-event page. -/
theorem page_emission_is_ordered_sublist_witness :
    ∃ sub : List FilteredLogEvent,
      sub.Sublist [⟨some "a", some 1, some "m"⟩] ∧
      ([("a", "m")].map Prod.snd) = sub.map (fun e => e.message.getD "") ∧
      ([("a", "m")].map Prod.fst) = sub.map (fun e => e.event_id.getD "") :=
  page_emission_is_ordered_sublist [] ["a"] [⟨some "a", some 1, some "m"⟩]
    [("a", "m")] (by decide)

/-- C4 counterexample: two engine states with the same live pagination
token but different `start_time` values yield different requests, so
the token alone does not fully determine the next request. -/
theorem request_depends_on_start_time :
    (mkRequest "f" ⟨some "T", some 0, []⟩).next_token =
      (mkRequest "f" ⟨some "T", some 1, []⟩).next_token ∧
    mkRequest "f" ⟨some "T", some 0, []⟩ ≠
      mkRequest "f" ⟨some "T", some 1, []⟩ := by
  constructor
  · rfl
  · decide

/-- C4 (amended): a response token `T` is carried verbatim into the
immediately following request and `start_time` is not advanced between
the two calls; the request does still contain that unchanged
`start_time` field alongside the token. -/
theorem token_precedence_start_time_frozen (fn : String)
    (r : FilterLogEventsResponse) (t : String) (now : Int)
    (s s' : TailState) (out : List (String × String))
    (ht : r.next_token = some t)
    (h : tailStep (Except.ok r) now s = .ok s' out) :
    (mkRequest fn s').next_token = some t ∧
    (mkRequest fn s').start_time = s.start_time ∧
    s'.next_token = some t ∧
    s'.start_time = s.start_time := by
  obtain ⟨-, -, -, hnt, hst⟩ := tailStep_ok_spec r now s s' out h
  have h1 : s'.next_token = some t := by rw [hnt, ht]
  have h2 : s'.start_time = s.start_time := by rw [hst, ht]
  exact ⟨h1, h2, h1, h2⟩

/-- Witness for the amended C4 at a concrete tokened response. -/
theorem token_precedence_start_time_frozen_witness :
    (mkRequest "f" ⟨some "T", some 5, []⟩).next_token = some "T" ∧
    (mkRequest "f" ⟨some "T", some 5, []⟩).start_time =
      (⟨none, some 5, []⟩ : TailState).start_time ∧
    (⟨some "T", some 5, []⟩ : TailState).next_token = some "T" ∧
    (⟨some "T", some 5, []⟩ : TailState).start_time =
      (⟨none, some 5, []⟩ : TailState).start_time :=
  token_precedence_start_time_frozen "f" ⟨none, some "T"⟩ "T" 0
    ⟨none, some 5, []⟩ ⟨some "T", some 5, []⟩ [] (by decide) (by decide)

/-- C5: when the query of some iteration fails, the engine returns the
very same error; everything emitted before the failure is kept, no
retry happens and the remainder of the oracle is never consulted. -/
theorem query_error_fatal_no_retry
    (pre post : List (Except QueryError FilterLogEventsResponse × Int))
    (e : QueryError) (nowE : Int) (s : TailState)
    (h : ∀ x ∈ pre, okWf x.1 = true) :
    tailRun s (pre ++ (Except.error e, nowE) :: post) =
      .failed e (tailRun s pre).output := by
  induction pre generalizing s with
  | nil => rfl
  | cons x rest ih =>
    cases x with
    | mk res now =>
      have hx : okWf res = true := h (res, now) (List.mem_cons_self _ _)
      have hrest := fun y hy => h y (List.mem_cons_of_mem _ hy)
      obtain ⟨s', out, hstep⟩ := tailStep_ok_of_wf res now s hx
      rw [List.cons_append, tailRun_cons_ok res now _ s s' out hstep,
        ih s' hrest, tailRun_cons_ok res now rest s s' out hstep]
      obtain ⟨s'', out', hrr⟩ := tailRun_wf_running rest s' hrest
      rw [hrr]
      simp [RunResult.output]

/-- Witness for C5 on a one-page prefix followed by a failing call. -/
theorem query_error_fatal_no_retry_witness :
    tailRun ⟨none, some 0, []⟩
        ([(Except.ok ⟨some [⟨some "a", some 1, some "m"⟩], none⟩, 0)] ++
          (Except.error "boom", 0) ::
            [(Except.ok ⟨some [], none⟩, 0)]) =
      .failed "boom"
        (tailRun ⟨none, some 0, []⟩
          [(Except.ok ⟨some [⟨some "a", some 1, some "m"⟩], none⟩,
            0)]).output :=
  query_error_fatal_no_retry
    [(Except.ok ⟨some [⟨some "a", some 1, some "m"⟩], none⟩, 0)]
    [(Except.ok ⟨some [], none⟩, 0)] "boom" 0 ⟨none, some 0, []⟩
    (by decide)

/-- C6: the loop's `Ok(())` return is unreachable — no oracle makes the
run produce it — and when every query call succeeds with well-formed
events the engine consumes any finite oracle and is still polling. -/
theorem tail_never_returns_ok
    (oracle : List (Except QueryError FilterLogEventsResponse × Int))
    (s : TailState) :
    (∀ o, tailRun s oracle ≠ .done o) ∧
    ((∀ x ∈ oracle, okWf x.1 = true) →
      ∃ s' out, tailRun s oracle = .running s' out) :=
  ⟨tailRun_ne_done oracle s, tailRun_wf_running oracle s⟩

/-- Witness for C6 on a concrete all-successful oracle. -/
theorem tail_never_returns_ok_witness :
    ∃ s' out,
      tailRun ⟨none, some 0, []⟩
          [(Except.ok ⟨some [⟨some "a", some 1, some "m"⟩], none⟩, 0)] =
        .running s' out :=
  (tail_never_returns_ok
    [(Except.ok ⟨some [⟨some "a", some 1, some "m"⟩], none⟩, 0)]
    ⟨none, some 0, []⟩).2 (by decide)

/-- C7: every request the engine builds, whatever its state, has log
group `"/aws/lambda/" ++ name` and page limit `10000`, so the two
fields are identical on every iteration. -/
theorem request_group_and_limit_fixed (function_name : String)
    (s : TailState) :
    (mkRequest function_name s).log_group_name =
      "/aws/lambda/" ++ function_name ∧
    (mkRequest function_name s).limit = some 10000 :=
  ⟨rfl, rfl⟩

/-- C8: the two historical variants are not observationally equivalent
— on a page holding an unseen event whose timestamp does not exceed
`user_time` the threshold variant emits strictly fewer messages — yet
whenever every event's (defaulted) timestamp exceeds `user_time` the
two variants produce identical results. -/
theorem variants_inequivalent_yet_agree_above_threshold :
    ((tailRunT 10 ⟨none, some 0, []⟩
        [(Except.ok ⟨some [⟨some "a", some 0, some "m"⟩], none⟩,
          0)]).output.length <
      (tailRun ⟨none, some 0, []⟩
        [(Except.ok ⟨some [⟨some "a", some 0, some "m"⟩], none⟩,
          0)]).output.length) ∧
    ∀ (user_time : Int) (s : TailState)
      (oracle : List (Except QueryError FilterLogEventsResponse × Int)),
      (∀ x ∈ oracle, allTsAbove user_time x.1 = true) →
      tailRunT user_time s oracle = tailRun s oracle :=
  ⟨by decide, fun ut s oracle h => tailRunT_eq ut s oracle h⟩

/-- Witness for the equivalence half of C8 at a concrete oracle. -/
theorem variants_agree_above_threshold_witness :
    tailRunT 3 ⟨none, some 0, []⟩
        [(Except.ok ⟨some [⟨some "b", some 9, some "n"⟩], none⟩, 0)] =
      tailRun ⟨none, some 0, []⟩
        [(Except.ok ⟨some [⟨some "b", some 9, some "n"⟩], none⟩, 0)] :=
  variants_inequivalent_yet_agree_above_threshold.2 3 ⟨none, some 0, []⟩
    [(Except.ok ⟨some [⟨some "b", some 9, some "n"⟩], none⟩, 0)]
    (by decide)

/-- C9: an event without an `event_id` anywhere in a page panics the
engine; an unseen event without a `message` panics it; processing is
total when every event carries both; and a panicking page makes the
iteration panic rather than return a `QueryError`. -/
theorem missing_fields_panic :
    (∀ (seen : List String) (evs : List FilteredLogEvent)
        (e : FilteredLogEvent), e ∈ evs → e.event_id = none →
        processEvents seen evs = none) ∧
    (∀ (seen seenP : List String) (pre : List FilteredLogEvent)
        (e : FilteredLogEvent) (post : List FilteredLogEvent)
        (id : String) (out : List (String × String)),
        processEvents seen pre = some (seenP, out) →
        e.event_id = some id → id ∉ seenP → e.message = none →
        processEvents seen (pre ++ e :: post) = none) ∧
    (∀ (seen : List String) (evs : List FilteredLogEvent),
        (∀ e ∈ evs, e.event_id.isSome ∧ e.message.isSome) →
        (processEvents seen evs).isSome) ∧
    (∀ (s : TailState) (now : Int) (r : FilterLogEventsResponse)
        (evs : List FilteredLogEvent),
        r.events = some evs → processEvents s.seen evs = none →
        tailStep (Except.ok r) now s = .panicked) :=
  ⟨fun seen evs e he hid => processEvents_id_none seen evs e he hid,
   fun seen seenP pre e post id out hpre hid hmem hmsg =>
     processEvents_msg_none seen seenP pre e post id out hpre hid hmem hmsg,
   fun seen evs h => processEvents_isSome seen evs h,
   fun s now r evs hev hpe => tailStep_panicked_of s now r evs hev hpe⟩

/-- Witness for C9: a page whose only event has no `event_id` panics. -/
theorem missing_fields_panic_witness :
    processEvents [] [⟨none, none, none⟩] = none :=
  missing_fields_panic.1 [] [⟨none, none, none⟩] ⟨none, none, none⟩
    (by decide) rfl

/-- C10: in the `logs.rs` variant an event with an absent timestamp is
given `i64::MAX`, which exceeds any realisable `user_time`, so such an
event is emitted exactly when its id has not been seen. -/
theorem absent_timestamp_bypasses_filter (user_time : Int)
    (seen : List String) (e : FilteredLogEvent)
    (rest : List FilteredLogEvent) (id m : String)
    (hut : user_time < i64Max) (hts : e.timestamp = none)
    (hid : e.event_id = some id) (hm : e.message = some m) :
    (id ∈ seen →
      processEventsT user_time seen (e :: rest) =
        processEventsT user_time seen rest) ∧
    (id ∉ seen →
      processEventsT user_time seen (e :: rest) =
        (processEventsT user_time (id :: seen) rest).map
          (fun p => (p.1, (id, m) :: p.2))) := by
  have hpass : user_time < e.timestamp.getD i64Max := by
    rw [hts]; exact hut
  constructor
  · intro hmem
    simp [processEventsT, hid, if_pos hmem]
  · intro hmem
    simp only [processEventsT, hid, if_neg hmem, if_pos hpass, hm]
    cases processEventsT user_time (id :: seen) rest with
    | none => rfl
    | some p => cases p with
      | mk a b => simp

/-- Witness for C10 on a concrete timestampless event. -/
theorem absent_timestamp_bypasses_filter_witness :
    ("z" ∈ ([] : List String) →
      processEventsT 0 [] [⟨some "z", none, some "w"⟩] =
        processEventsT 0 [] []) ∧
    ("z" ∉ ([] : List String) →
      processEventsT 0 [] [⟨some "z", none, some "w"⟩] =
        (processEventsT 0 ["z"] []).map
          (fun p => (p.1, ("z", "w") :: p.2))) :=
  absent_timestamp_bypasses_filter 0 [] ⟨some "z", none, some "w"⟩ []
    "z" "w" (by decide) rfl rfl rfl
